import Mathlib

/-!
Verification development for the gmaps-scraper repository.

Strings from the Python source are modelled as `List Char` (Python `str` is a
sequence of code points).  Character classes such as `[a-zA-Z0-9]` in the
source's regexes are ASCII ranges, so Lean's ASCII `Char.isAlphanum`,
`Char.isAlpha`, `Char.isDigit` and `Char.toLower` model them exactly on the
inputs those checks can see; Python's `\d` and `str.lower()` are modelled by
their ASCII restrictions throughout (both sides of every statement use the
same modelling, so no claim is decided by this restriction).
-/

namespace GmapsScraper

/-! ## Generic list/string helpers mirroring Python primitives -/

/-- Python whitespace for `str.strip()` / `str.split()` (ASCII part). -/
def isPyWs (c : Char) : Bool :=
  c == ' ' || c == '\t' || c == '\n' || c == '\r' || c == '\x0b' || c == '\x0c'

/-- Python `s.strip()`: drop whitespace from both ends. -/
def pyStrip (l : List Char) : List Char :=
  ((l.dropWhile isPyWs).reverse.dropWhile isPyWs).reverse

/-- Does `p` occur as a prefix of `l`? (used to model regex/startswith checks) -/
def startsWithL : List Char → List Char → Bool
  | [], _ => true
  | _ :: _, [] => false
  | p :: ps, c :: cs => p == c && startsWithL ps cs

/-- Python `p in l` for strings: substring containment. -/
def subIn (p : List Char) : List Char → Bool
  | [] => p.isEmpty
  | c :: cs => startsWithL p (c :: cs) || subIn p cs

/-- Split a list at the first occurrence of `c` (Python regex scanning helper). -/
def breakAt (c : Char) : List Char → Option (List Char × List Char)
  | [] => none
  | x :: xs =>
    if x = c then some ([], xs)
    else (breakAt c xs).map (fun p => (x :: p.1, p.2))

/-- Split at the last occurrence of `'.'`: returns `(pre, suf)` with
`l = pre ++ '.' :: suf` and no `'.'` in `suf`. -/
def splitLastDot : List Char → Option (List Char × List Char)
  | [] => none
  | c :: cs =>
    match splitLastDot cs with
    | some (pre, suf) => some (c :: pre, suf)
    | none => if c = '.' then some ([], cs) else none

/-- Python `s.split(sep)` for a single-character separator. -/
def splitChar (c : Char) : List Char → List (List Char)
  | [] => [[]]
  | x :: xs =>
    let r := splitChar c xs
    if x = c then [] :: r
    else
      match r with
      | h :: t => (x :: h) :: t
      | [] => [[x]]

/-- Python `s.split()` (no argument): whitespace-delimited tokens, no empties. -/
def pySplitWs (l : List Char) : List (List Char) :=
  (l.foldr
    (fun c acc =>
      if isPyWs c then [] :: acc
      else
        match acc with
        | h :: t => (c :: h) :: t
        | [] => [[c]]) [[]]).filter (fun t => !t.isEmpty)

/-- ASCII lowercase of a Python string (`str.lower()` restricted to ASCII). -/
def lowerL (l : List Char) : List Char := l.map Char.toLower

/-! ## Email pattern matcher (constants.py `EMAIL_PATTERN`, utils.py `validate_email`)

`EMAIL_PATTERN = r'^[a-zA-Z0-9][a-zA-Z0-9._%+-]{0,63}@[a-zA-Z0-9][a-zA-Z0-9.-]+\.[a-zA-Z]{2,}$'`
-/

/-- Character class `[a-zA-Z0-9._%+-]` (local part continuation). -/
def isLocalChar (c : Char) : Bool :=
  c.isAlphanum || c == '.' || c == '_' || c == '%' || c == '+' || c == '-'

/-- Character class `[a-zA-Z0-9.-]` (domain continuation). -/
def isDomChar (c : Char) : Bool :=
  c.isAlphanum || c == '.' || c == '-'

/-- Does the local part `[a-zA-Z0-9][a-zA-Z0-9._%+-]{0,63}` match `l` entirely? -/
def localMatch (l : List Char) : Bool :=
  match l with
  | c :: rest => c.isAlphanum && rest.all isLocalChar && rest.length ≤ 63
  | [] => false

/-- Does `[a-zA-Z0-9][a-zA-Z0-9.-]+\.[a-zA-Z]{2,}` match `l` entirely?
Backtracking existence: any witnessing split for the literal dot must use the
last dot of the tail, because the TLD may contain only letters. -/
def domainMatch (l : List Char) : Bool :=
  match l with
  | d :: rest =>
    d.isAlphanum &&
      (match splitLastDot rest with
       | some (pre, suf) =>
         !pre.isEmpty && pre.all isDomChar && 2 ≤ suf.length && suf.all Char.isAlpha
       | none => false)
  | [] => false

/-- Anchored match of `EMAIL_PATTERN` with `$` at the true end of the string.
No character class of the pattern contains `'@'`, so a match forces exactly
one `'@'`, located where `breakAt` finds the first one. -/
def emailFullMatch (s : List Char) : Bool :=
  match breakAt '@' s with
  | some (pre, post) => localMatch pre && domainMatch post
  | none => false

/-- Python `re.match(EMAIL_PATTERN, s)`: `$` also matches just before a
trailing newline, so a single trailing `'\n'` is tolerated. -/
def pyEmailMatch (s : List Char) : Bool :=
  emailFullMatch s ||
    (if s.getLast? = some '\n' then emailFullMatch s.dropLast else false)

/-- `constants.EMAIL_BLACKLIST`. -/
def EMAIL_BLACKLIST : List (List Char) :=
  ["example.com".data, "domain.com".data, "test.com".data, "sample.com".data,
   "your-domain.com".data, "yourdomain.com".data, "website.com".data]

/-- `constants.EMAIL_IMAGE_EXTENSIONS`. -/
def EMAIL_IMAGE_EXTENSIONS : List (List Char) :=
  [".png".data, ".jpg".data, ".jpeg".data, ".gif".data, ".svg".data,
   ".webp".data, ".bmp".data, ".ico".data]

/-- `constants.EMAIL_MIN_LENGTH`. -/
def EMAIL_MIN_LENGTH : Nat := 5
/-- `constants.EMAIL_MAX_LENGTH`. -/
def EMAIL_MAX_LENGTH : Nat := 256

/-- `utils.validate_email`. -/
def validate_email (email : List Char) : Bool :=
  if email.isEmpty || email.length < EMAIL_MIN_LENGTH then false
  else if EMAIL_MAX_LENGTH < email.length then false
  else if !pyEmailMatch email then false
  else
    let email_lower := lowerL email
    if EMAIL_BLACKLIST.any (fun b => subIn b email_lower) then false
    else if EMAIL_IMAGE_EXTENSIONS.any (fun e => subIn e email_lower) then false
    else true

/-- The email grammar as the spec states it: local part starting alphanumeric
then up to 63 more characters of `[A-Za-z0-9._%+-]`, an `'@'`, a domain
starting alphanumeric and continuing with one or more of `[A-Za-z0-9.-]`,
a literal dot, and a TLD of 2 or more letters — matched against the whole
string, nothing before or after. -/
def SpecGrammar (s : List Char) : Prop :=
  ∃ c0 loc d0 dom tld,
    s = c0 :: (loc ++ '@' :: d0 :: (dom ++ '.' :: tld)) ∧
    c0.isAlphanum = true ∧ loc.all isLocalChar = true ∧ loc.length ≤ 63 ∧
    d0.isAlphanum = true ∧ dom ≠ [] ∧ dom.all isDomChar = true ∧
    2 ≤ tld.length ∧ tld.all Char.isAlpha = true

/-- The spec's characterization of a valid email, exactly as the claim words
it: length between 5 and 256 inclusive, the stated grammar, no blacklisted
placeholder-domain substring in the lowercased string, and no image-file
extension substring in the lowercased string. -/
def spec_is_valid_email (s : List Char) : Prop :=
  (5 ≤ s.length ∧ s.length ≤ 256) ∧ SpecGrammar s ∧
  (∀ b ∈ EMAIL_BLACKLIST, ¬ ∃ u v, lowerL s = u ++ b ++ v) ∧
  (∀ e ∈ EMAIL_IMAGE_EXTENSIONS, ¬ ∃ u v, lowerL s = u ++ e ++ v)

/-! ## Email extraction (constants.py `EMAIL_EXTRACT_PATTERN`, utils.py
`extract_email_from_text`)

`EMAIL_EXTRACT_PATTERN` is `EMAIL_PATTERN` without the `^`/`$` anchors; the
scanner below simulates Python's `re.findall` left-to-right non-overlapping
greedy matching of that pattern. -/

/-- Take at most `n` leading characters satisfying `p` (the `{0,63}` bound). -/
def takeUpTo (p : Char → Bool) : Nat → List Char → List Char × List Char
  | _, [] => ([], [])
  | 0, l => ([], l)
  | n+1, c :: cs =>
    if p c then
      let r := takeUpTo p n cs
      (c :: r.1, r.2)
    else ([], c :: cs)

/-- Greedy backtracking match of `[a-zA-Z0-9.-]* \. [a-zA-Z]{2,}` at the head
of the list: prefer extending the `+` run over taking the literal dot, which
tries candidate dots rightmost-first exactly as the regex engine does.
Returns the consumed characters and the remainder. -/
def domCont : List Char → Option (List Char × List Char)
  | [] => none
  | c :: cs =>
    (if isDomChar c then (domCont cs).map (fun p => (c :: p.1, p.2)) else none) <|>
      (if c = '.' then
        let tld := cs.takeWhile Char.isAlpha
        if 2 ≤ tld.length then some ('.' :: tld, cs.drop tld.length) else none
      else none)

/-- Greedy match of `[a-zA-Z0-9.-]+\.[a-zA-Z]{2,}` at the head of the list. -/
def matchDomainTail (l : List Char) : Option (List Char × List Char) :=
  match l with
  | c :: cs => if isDomChar c then (domCont cs).map (fun p => (c :: p.1, p.2)) else none
  | [] => none

/-- Match `EMAIL_EXTRACT_PATTERN` at the start of `s` (greedy); returns the
matched substring and the remainder.  The local-part quantifier needs no
backtracking: every character it could give back is a local character, never
the required `'@'`. -/
def matchEmailAt (s : List Char) : Option (List Char × List Char) :=
  match s with
  | c :: cs =>
    if c.isAlphanum then
      let r := takeUpTo isLocalChar 63 cs
      match r.2 with
      | '@' :: d :: r3 =>
        if d.isAlphanum then
          match matchDomainTail r3 with
          | some (m, rest) => some (c :: r.1 ++ '@' :: d :: m, rest)
          | none => none
        else none
      | _ => none
    else none
  | [] => none

/-- `re.findall(EMAIL_EXTRACT_PATTERN, ·)`: scan left to right, emit each
(non-overlapping) match and resume after it.  Fuel is the input length; every
step consumes at least one character, so it never runs out. -/
def findallAux : Nat → List Char → List (List Char)
  | 0, _ => []
  | _ + 1, [] => []
  | fuel + 1, c :: cs =>
    match matchEmailAt (c :: cs) with
    | some (m, rest) => m :: findallAux fuel rest
    | none => findallAux fuel cs

/-- All matches of the email extraction regex in `s`, in document order. -/
def findallEmails (s : List Char) : List (List Char) :=
  findallAux s.length s

/-- The `for match in matches: if validate_email(match): return match` loop. -/
def firstValid : List (List Char) → Option (List Char)
  | [] => none
  | m :: ms => if validate_email m then some m else firstValid ms

/-- `utils.extract_email_from_text`: lowercases the text, finds all regex
matches, returns the first that validates. -/
def extract_email_from_text (text : List Char) : Option (List Char) :=
  if text.isEmpty then none
  else firstValid (findallEmails (lowerL text))

/-! ## Email discovery strategy chain (gmaps_scraper.py `EmailFinder`)

A fetched page is modelled by what the strategies read from the driver: the
`href` of every anchor element (the mailto XPath `//a[starts-with(@href,
'mailto:')]` filters them), the raw page source, and, for each
contact-region selector in order, the texts of its matching elements. -/

/-- A fetched third-party page, as the three strategies see it. -/
structure Page where
  anchorHrefs : List (List Char)
  pageSource : List Char
  contactRegions : List (List (List Char))

/-- The three discovery strategies, in their fixed order. -/
inductive Strategy where
  | mailto
  | regexSource
  | visible
deriving DecidableEq

/-- `"mailto:"`. -/
def mailtoScheme : List Char := "mailto:".data

/-- Python `href.replace('mailto:', '')`: remove every occurrence, scanning
left to right. -/
def removeMailto : List Char → List Char
  | 'm' :: 'a' :: 'i' :: 'l' :: 't' :: 'o' :: ':' :: rest => removeMailto rest
  | c :: cs => c :: removeMailto cs
  | [] => []

/-- `href.replace('mailto:', '').split('?')[0].strip()`. -/
def stripMailtoHref (href : List Char) : List Char :=
  pyStrip ((removeMailto href).takeWhile (fun c => c ≠ '?'))

/-- `EmailFinder._find_by_mailto`: first anchor whose href starts with
`mailto:`; strip scheme and query string; keep it only if it validates. -/
def find_by_mailto (p : Page) : List Char :=
  match p.anchorHrefs.filter (fun h => startsWithL mailtoScheme h) with
  | [] => []
  | href :: _ =>
    let email := stripMailtoHref href
    if validate_email email then email else []

/-- `EmailFinder._find_by_regex`: run the extractor over the lowercased page
source. -/
def find_by_regex (p : Page) : List Char :=
  match extract_email_from_text (lowerL p.pageSource) with
  | some e => if !e.isEmpty then e else []
  | none => []

/-- The inner loop of `_find_in_visible_elements` over (at most 3) element
texts of one contact region. -/
def scanElems : List (List Char) → Option (List Char)
  | [] => none
  | t :: ts =>
    match extract_email_from_text (lowerL t) with
    | some e => if !e.isEmpty then some e else scanElems ts
    | none => scanElems ts

/-- The selector loop of `_find_in_visible_elements`. -/
def visibleGo : List (List (List Char)) → List Char
  | [] => []
  | region :: rest =>
    match scanElems (region.take 3) with
    | some e => e
    | none => visibleGo rest

/-- `EmailFinder._find_in_visible_elements`. -/
def find_in_visible_elements (p : Page) : List Char :=
  visibleGo p.contactRegions

/-- `EmailFinder.find_email_on_website` after a successful fetch: try the
three strategies in order, short-circuiting on the first non-empty result.
The second component records which strategies were invoked. -/
def find_email_on_website (p : Page) : List Char × List Strategy :=
  let email := find_by_mailto p
  if !email.isEmpty then (email, [Strategy.mailto])
  else
    let email2 := find_by_regex p
    if !email2.isEmpty then (email2, [Strategy.mailto, Strategy.regexSource])
    else
      (find_in_visible_elements p,
       [Strategy.mailto, Strategy.regexSource, Strategy.visible])

/-! ## Record validation (utils.py `validate_data`, config.py
`VALIDATION_RULES`) -/

/-- A scraped record: a string-valued mapping (Python dict). -/
abbrev Record := List (String × List Char)

/-- Python `data.get(field, "")`. -/
def recGet (d : Record) (k : String) : List Char :=
  match d.find? (fun kv => kv.1 == k) with
  | some kv => kv.2
  | none => []

/-- `constants.CSV_HEADERS` (the nine record fields, in order). -/
def CSV_HEADERS : List String :=
  ["namaTravel", "alamat", "kota", "telepon", "deskripsi",
   "websiteUrl", "logoUrl", "email", "mapUrl"]

/-- `constants.VALIDATION_MODES`. -/
def VALIDATION_MODES : List String := ["STRICT", "MODERATE", "LENIENT", "NONE"]

/-- `ScraperConfig.VALIDATION_RULES` as a lookup (the source's dict literal). -/
def VALIDATION_RULES (mode : String) : List String :=
  if mode = "STRICT" then CSV_HEADERS
  else if mode = "MODERATE" then ["namaTravel", "websiteUrl", "email"]
  else if mode = "LENIENT" then ["namaTravel", "telepon"]
  else []

/-- `utils.validate_data`. -/
def validate_data (data : Record) (mode : String) : Bool × String :=
  let m := if VALIDATION_MODES.contains mode then mode else "MODERATE"
  let required := VALIDATION_RULES m
  if required.isEmpty then (true, "No validation required")
  else
    let missing := required.filter (fun f => (pyStrip (recGet data f)).isEmpty)
    if missing.isEmpty then (true, "Valid")
    else (false, "Missing: " ++ String.intercalate ", " missing)

/-! ## Field truncation (utils.py `truncate_fields`, config.py
`MAX_FIELD_LENGTH`) -/

/-- `ScraperConfig.MAX_FIELD_LENGTH` as a lookup (the source's dict literal). -/
def MAX_FIELD_LENGTH (k : String) : Option Nat :=
  if k = "namaTravel" then some 256
  else if k = "alamat" then some 512
  else if k = "kota" then some 100
  else if k = "telepon" then some 50
  else if k = "deskripsi" then some 512
  else if k = "websiteUrl" then some 256
  else if k = "logoUrl" then some 256
  else if k = "email" then some 256
  else if k = "mapUrl" then some 512
  else none

/-- The per-field body of the `truncate_fields` loop. -/
def truncVal (key : String) (value : List Char) : List Char :=
  match MAX_FIELD_LENGTH key with
  | some maxLen =>
    if !value.isEmpty && maxLen < value.length then
      value.take (maxLen - 3) ++ "...".data
    else value
  | none => value

/-- `utils.truncate_fields`: rebuild the dict, truncating over-length values. -/
def truncate_fields : Record → Record
  | [] => []
  | (key, value) :: rest => (key, truncVal key value) :: truncate_fields rest

/-! ## City extraction (utils.py `extract_city_from_address`) -/

/-- `utils.extract_city_from_address`.  `parts[-1].split()[-1]` raises
`IndexError` when the last segment has no whitespace-delimited token; the
function's `except` handler turns that into `""` (the `none` branch). -/
def extract_city_from_address (address : List Char) : List Char :=
  if address.isEmpty then []
  else
    let parts := (splitChar ',' address).map pyStrip
    if 1 < parts.length then
      match (pySplitWs ((parts.getLast?).getD [])).getLast? with
      | none => []
      | some lastTok =>
        if (!lastTok.isEmpty && lastTok.all Char.isDigit) && 2 < parts.length then
          parts.getD (parts.length - 3) []
        else parts.getD (parts.length - 2) []
    else []

/-- The city heuristic exactly as the claim words it: fewer than 2 segments
gives `""`; otherwise the second-to-last segment, except third-to-last when
the last whitespace-delimited token of the last segment is purely numeric and
there are more than 2 segments (no token means the exception does not apply). -/
def extract_city_spec (address : List Char) : List Char :=
  let parts := (splitChar ',' address).map pyStrip
  if parts.length < 2 then []
  else
    let numericTail :=
      match (pySplitWs ((parts.getLast?).getD [])).getLast? with
      | some t => !t.isEmpty && t.all Char.isDigit
      | none => false
    if numericTail && 2 < parts.length then parts.getD (parts.length - 3) []
    else parts.getD (parts.length - 2) []

/-- The claim's algorithm amended: when the last segment has no
whitespace-delimited token at all, the result is `""`. -/
def extract_city_amended (address : List Char) : List Char :=
  let parts := (splitChar ',' address).map pyStrip
  if parts.length < 2 then []
  else
    match (pySplitWs ((parts.getLast?).getD [])).getLast? with
    | none => []
    | some t =>
      if (!t.isEmpty && t.all Char.isDigit) && 2 < parts.length then
        parts.getD (parts.length - 3) []
      else parts.getD (parts.length - 2) []

/-! ## Retry wrapper (utils.py `retry_on_failure`)

The wrapped operation is modelled by its outcome at each attempt index
(`f : Nat → Except E A`).  The loop returns the final outcome — where
`Except.error none` models Python's `raise None` when `max_retries = 0` —
together with the list of back-off sleeps performed between attempts and the
list of attempt indices actually invoked. -/

/-- The `for attempt in range(max_retries)` loop of `retry_on_failure`:
`s` is the current attempt index, `k` the number of attempts remaining. -/
def retryLoop {E A : Type} (f : Nat → Except E A) (delay backoff maxR : Nat) :
    Nat → Nat → Option E → Except (Option E) A × List Nat × List Nat
  | _, 0, lastE => (Except.error lastE, [], [])
  | s, k + 1, _ =>
    match f s with
    | Except.ok a => (Except.ok a, [], [s])
    | Except.error e =>
      let r := retryLoop f delay backoff maxR (s + 1) k (some e)
      if s < maxR - 1 then (r.1, delay * backoff ^ s :: r.2.1, s :: r.2.2)
      else (r.1, r.2.1, s :: r.2.2)

/-- `utils.retry_on_failure` applied to an operation: result, sleeps, and the
attempt indices invoked. -/
def retry_on_failure {E A : Type} (f : Nat → Except E A)
    (maxR delay backoff : Nat) : Except (Option E) A × List Nat × List Nat :=
  retryLoop f delay backoff maxR 0 maxR none

/-! ## Run statistics (utils.py `DataStatistics`) -/

/-- The mutable state of `utils.DataStatistics`. -/
structure DataStatistics where
  total_processed : Nat
  total_saved : Nat
  total_skipped : Nat
  skip_reasons : List (String × Nat)
deriving DecidableEq

/-- `DataStatistics.__init__`. -/
def DataStatistics.init : DataStatistics := ⟨0, 0, 0, []⟩

/-- `self.skip_reasons[reason] = self.skip_reasons.get(reason, 0) + 1`. -/
def bumpReason (r : String) : List (String × Nat) → List (String × Nat)
  | [] => [(r, 1)]
  | (k, v) :: rest =>
    if k = r then (k, v + 1) :: rest else (k, v) :: bumpReason r rest

/-- `DataStatistics.add_saved`. -/
def DataStatistics.add_saved (s : DataStatistics) : DataStatistics :=
  { s with
    total_processed := s.total_processed + 1
    total_saved := s.total_saved + 1 }

/-- `DataStatistics.add_skipped`. -/
def DataStatistics.add_skipped (s : DataStatistics) (reason : String) :
    DataStatistics :=
  { s with
    total_processed := s.total_processed + 1
    total_skipped := s.total_skipped + 1
    skip_reasons := bumpReason reason s.skip_reasons }

/-- One call on the statistics aggregator. -/
inductive StatOp where
  | saved
  | skipped (reason : String)

/-- Apply one call. -/
def applyOp (s : DataStatistics) : StatOp → DataStatistics
  | StatOp.saved => s.add_saved
  | StatOp.skipped reason => s.add_skipped reason

/-- The state reached from a fresh aggregator by a sequence of calls. -/
def runOps (ops : List StatOp) : DataStatistics :=
  ops.foldl applyOp DataStatistics.init

/-- Sum of the per-reason counts. -/
def reasonsTotal (l : List (String × Nat)) : Nat :=
  (l.map (fun kv => kv.2)).sum

/-- The count recorded for reason `r` (0 when absent). -/
def reasonCount (r : String) (l : List (String × Nat)) : Nat :=
  match l.find? (fun kv => kv.1 == r) with
  | some kv => kv.2
  | none => 0

/-! ## Helper lemmas -/

theorem startsWithL_iff (p l : List Char) :
    startsWithL p l = true ↔ ∃ r, l = p ++ r := by
  induction p generalizing l with
  | nil => simp [startsWithL]
  | cons x xs ih =>
    cases l with
    | nil => simp [startsWithL]
    | cons c cs =>
      simp only [startsWithL, Bool.and_eq_true, beq_iff_eq, ih, List.cons_append]
      constructor
      · rintro ⟨rfl, r, rfl⟩
        exact ⟨r, rfl⟩
      · rintro ⟨r, h⟩
        obtain ⟨h1, h2⟩ := List.cons.inj h
        exact ⟨h1.symm, r, h2⟩

theorem subIn_iff (p l : List Char) :
    subIn p l = true ↔ ∃ u v, l = u ++ p ++ v := by
  induction l with
  | nil =>
    simp only [subIn, List.isEmpty_iff]
    constructor
    · rintro rfl
      exact ⟨[], [], rfl⟩
    · rintro ⟨u, v, h⟩
      rcases List.append_eq_nil.mp h.symm with ⟨h1, h2⟩
      exact (List.append_eq_nil.mp h1).2
  | cons c cs ih =>
    simp only [subIn, Bool.or_eq_true, startsWithL_iff, ih]
    constructor
    · rintro (⟨r, h⟩ | ⟨u, v, h⟩)
      · exact ⟨[], r, by simpa using h⟩
      · exact ⟨c :: u, v, by simp [h]⟩
    · rintro ⟨u, v, h⟩
      cases u with
      | nil => exact Or.inl ⟨v, by simpa using h⟩
      | cons a u' =>
        obtain ⟨h1, h2⟩ := List.cons.inj h
        exact Or.inr ⟨u', v, h2⟩

theorem breakAt_eq_some {c : Char} {l a b : List Char}
    (h : breakAt c l = some (a, b)) : l = a ++ c :: b ∧ c ∉ a := by
  induction l generalizing a b with
  | nil => simp [breakAt] at h
  | cons x xs ih =>
    by_cases hx : x = c
    · subst hx
      simp only [breakAt, if_pos rfl, Option.some.injEq, Prod.mk.injEq] at h
      obtain ⟨rfl, rfl⟩ := h
      simp
    · simp only [breakAt, if_neg hx, Option.map_eq_some'] at h
      obtain ⟨⟨a', b'⟩, hba, heq⟩ := h
      obtain ⟨rfl, rfl⟩ := Prod.mk.inj heq.symm
      obtain ⟨hl, hna⟩ := ih hba
      refine ⟨by simp [hl], ?_⟩
      simp only [List.mem_cons, not_or]
      exact ⟨fun hc => hx hc.symm, hna⟩

theorem breakAt_append {c : Char} {a : List Char} (b : List Char)
    (h : c ∉ a) : breakAt c (a ++ c :: b) = some (a, b) := by
  induction a with
  | nil => simp [breakAt]
  | cons x xs ih =>
    simp only [List.mem_cons, not_or] at h
    have hx : ¬ x = c := fun hh => h.1 hh.symm
    simp [breakAt, if_neg hx, ih h.2]

theorem splitLastDot_eq_none_iff (l : List Char) :
    splitLastDot l = none ↔ '.' ∉ l := by
  induction l with
  | nil => simp [splitLastDot]
  | cons c cs ih =>
    simp only [List.mem_cons, not_or]
    cases h : splitLastDot cs with
    | some p =>
      simp only [splitLastDot, h]
      constructor
      · intro hh
        exact absurd hh (by simp)
      · intro ⟨_, hcs⟩
        exact absurd (ih.mpr hcs) (by simp [h])
    | none =>
      simp only [splitLastDot, h]
      by_cases hc : c = '.'
      · subst hc
        simp
      · rw [if_neg hc]
        exact iff_of_true rfl ⟨fun hh => hc hh.symm, ih.mp h⟩

theorem splitLastDot_eq_some {l pre suf : List Char}
    (h : splitLastDot l = some (pre, suf)) :
    l = pre ++ '.' :: suf ∧ '.' ∉ suf := by
  induction l generalizing pre suf with
  | nil => simp [splitLastDot] at h
  | cons c cs ih =>
    cases hcs : splitLastDot cs with
    | some p =>
      obtain ⟨p1, p2⟩ := p
      simp only [splitLastDot, hcs, Option.some.injEq, Prod.mk.injEq] at h
      obtain ⟨rfl, rfl⟩ := h
      obtain ⟨hl, hns⟩ := ih hcs
      exact ⟨by simp [hl], hns⟩
    | none =>
      simp only [splitLastDot, hcs] at h
      by_cases hc : c = '.'
      · rw [if_pos hc] at h
        obtain ⟨rfl, rfl⟩ := Prod.mk.inj (Option.some.inj h)
        subst hc
        exact ⟨rfl, (splitLastDot_eq_none_iff cs).mp hcs⟩
      · rw [if_neg hc] at h
        exact absurd h (by simp)

theorem splitLastDot_append {suf : List Char} (pre : List Char)
    (h : '.' ∉ suf) : splitLastDot (pre ++ '.' :: suf) = some (pre, suf) := by
  induction pre with
  | nil =>
    rw [List.nil_append]
    simp [splitLastDot, (splitLastDot_eq_none_iff suf).mpr h]
  | cons x xs ih =>
    simp [splitLastDot, ih]

theorem localMatch_iff (l : List Char) :
    localMatch l = true ↔
      ∃ c0 loc, l = c0 :: loc ∧ c0.isAlphanum = true ∧
        loc.all isLocalChar = true ∧ loc.length ≤ 63 := by
  cases l with
  | nil => simp [localMatch]
  | cons c rest =>
    simp only [localMatch, Bool.and_eq_true, decide_eq_true_eq]
    constructor
    · rintro ⟨⟨h1, h2⟩, h3⟩
      exact ⟨c, rest, rfl, h1, h2, h3⟩
    · rintro ⟨c0, loc, heq, h1, h2, h3⟩
      obtain ⟨rfl, rfl⟩ := List.cons.inj heq
      exact ⟨⟨h1, h2⟩, h3⟩

theorem domainMatch_iff (l : List Char) :
    domainMatch l = true ↔
      ∃ d0 dom tld, l = d0 :: (dom ++ '.' :: tld) ∧ d0.isAlphanum = true ∧
        dom ≠ [] ∧ dom.all isDomChar = true ∧ 2 ≤ tld.length ∧
        tld.all Char.isAlpha = true := by
  cases l with
  | nil => simp [domainMatch]
  | cons d rest =>
    constructor
    · intro h
      simp only [domainMatch, Bool.and_eq_true] at h
      obtain ⟨h1, h2⟩ := h
      cases hsp : splitLastDot rest with
      | none => rw [hsp] at h2; simp at h2
      | some p =>
        obtain ⟨pre, suf⟩ := p
        rw [hsp] at h2
        simp only [Bool.and_eq_true, Bool.not_eq_true', List.isEmpty_eq_false,
          decide_eq_true_eq] at h2
        obtain ⟨⟨⟨hpe, hpc⟩, hsl⟩, hsa⟩ := h2
        obtain ⟨hl, _⟩ := splitLastDot_eq_some hsp
        exact ⟨d, pre, suf, by simp [hl], h1, hpe, hpc, hsl, hsa⟩
    · rintro ⟨d0, dom, tld, heq, h1, h2, h3, h4, h5⟩
      obtain ⟨rfl, rfl⟩ := List.cons.inj heq
      have hnd : '.' ∉ tld := by
        intro hmem
        have := List.all_eq_true.mp h5 _ hmem
        simp at this
      simp only [domainMatch, splitLastDot_append dom hnd, h1, h3, h4, h5,
        Bool.and_eq_true, Bool.not_eq_true', List.isEmpty_eq_false,
        decide_eq_true_eq, Bool.true_and, and_true]
      exact h2

theorem emailFullMatch_iff (s : List Char) :
    emailFullMatch s = true ↔ SpecGrammar s := by
  constructor
  · intro h
    unfold emailFullMatch at h
    cases hbr : breakAt '@' s with
    | none => rw [hbr] at h; simp at h
    | some p =>
      obtain ⟨pre, post⟩ := p
      rw [hbr] at h
      simp only [Bool.and_eq_true] at h
      obtain ⟨hloc, hdom⟩ := h
      obtain ⟨c0, loc, rfl, hc0, hlc, hll⟩ := (localMatch_iff pre).mp hloc
      obtain ⟨d0, dom, tld, rfl, hd0, hdn, hdc, htl, hta⟩ :=
        (domainMatch_iff post).mp hdom
      obtain ⟨hs, _⟩ := breakAt_eq_some hbr
      exact ⟨c0, loc, d0, dom, tld, by simp [hs], hc0, hlc, hll, hd0, hdn,
        hdc, htl, hta⟩
  · rintro ⟨c0, loc, d0, dom, tld, rfl, hc0, hlc, hll, hd0, hdn, hdc, htl, hta⟩
    have hna : '@' ∉ c0 :: loc := by
      simp only [List.mem_cons, not_or]
      constructor
      · intro hh
        rw [← hh] at hc0
        simp [Char.isAlphanum, Char.isAlpha, Char.isDigit] at hc0
      · intro hmem
        have := List.all_eq_true.mp hlc _ hmem
        simp [isLocalChar, Char.isAlphanum, Char.isAlpha, Char.isDigit] at this
    have hsplit :
        c0 :: (loc ++ '@' :: d0 :: (dom ++ '.' :: tld)) =
          (c0 :: loc) ++ '@' :: (d0 :: (dom ++ '.' :: tld)) := by simp
    rw [hsplit]
    unfold emailFullMatch
    rw [breakAt_append _ hna]
    simp only [Bool.and_eq_true]
    constructor
    · exact (localMatch_iff _).mpr ⟨c0, loc, rfl, hc0, hlc, hll⟩
    · exact (domainMatch_iff _).mpr ⟨d0, dom, tld, rfl, hd0, hdn, hdc, htl, hta⟩

theorem pyEmailMatch_iff (s : List Char) :
    pyEmailMatch s = true ↔
      SpecGrammar s ∨ ∃ s', s = s' ++ ['\n'] ∧ SpecGrammar s' := by
  unfold pyEmailMatch
  simp only [Bool.or_eq_true, emailFullMatch_iff]
  constructor
  · rintro (h | h)
    · exact Or.inl h
    · split at h
      · rename_i hlast
        refine Or.inr ⟨s.dropLast, ?_, (emailFullMatch_iff _).mp h⟩
        cases hs : s.reverse with
        | nil => simp [hs, List.reverse_eq_nil_iff.mp hs] at hlast
        | cons a t =>
          have : s = t.reverse ++ [a] := by
            have := congrArg List.reverse hs
            simpa using this
          subst this
          simp only [List.getLast?_concat, Option.some.injEq] at hlast
          simp [hlast]
      · simp at h
  · rintro (h | ⟨s', rfl, h⟩)
    · exact Or.inl h
    · refine Or.inr ?_
      rw [if_pos (by simp [List.getLast?_concat])]
      rw [List.dropLast_concat]
      exact (emailFullMatch_iff _).mpr h

/-! ## Claim C1 -/

/-- C1: the claimed full characterization of `validate_email` fails as
stated.  Python's `re.match` lets `$` match just before a trailing newline,
so `"ab@cd.ef\n"` is accepted by the code although it does not match the
stated email grammar (and hence does not satisfy the spec's
characterization). -/
theorem C1_counterexample_validate_email_newline :
    validate_email "ab@cd.ef\n".data = true ∧
      ¬ spec_is_valid_email "ab@cd.ef\n".data := by
  constructor
  · decide
  · intro h
    have hm : emailFullMatch "ab@cd.ef\n".data = true :=
      (emailFullMatch_iff _).mpr h.2.1
    have hf : emailFullMatch "ab@cd.ef\n".data = false := by decide
    rw [hm] at hf
    simp at hf

/-- C1 (amended): `validate_email s = true` iff the length of `s` is between
5 and 256 inclusive, `s` matches the stated email grammar — up to one
trailing newline, which Python's `$` tolerates —, the lowercased `s`
contains no blacklisted placeholder-domain substring, and the lowercased `s`
contains no image-file-extension substring. -/
theorem C1_amended_validate_email_characterization (s : List Char) :
    validate_email s = true ↔
      ((5 ≤ s.length ∧ s.length ≤ 256) ∧
       (SpecGrammar s ∨ ∃ s', s = s' ++ ['\n'] ∧ SpecGrammar s') ∧
       (∀ b ∈ EMAIL_BLACKLIST, ¬ ∃ u v, lowerL s = u ++ b ++ v) ∧
       (∀ e ∈ EMAIL_IMAGE_EXTENSIONS, ¬ ∃ u v, lowerL s = u ++ e ++ v)) := by
  simp only [validate_email, EMAIL_MIN_LENGTH, EMAIL_MAX_LENGTH]
  split_ifs with h1 h2 h3 h4 h5
  · simp only [Bool.or_eq_true, List.isEmpty_iff, decide_eq_true_eq] at h1
    simp only [false_iff, not_and]
    intro hlen _
    rcases h1 with h1 | h1
    · subst h1
      simp at hlen
    · omega
  · simp only [false_iff, not_and]
    intro hlen _
    omega
  · simp only [Bool.not_eq_true'] at h3
    simp only [false_iff, not_and]
    intro _ hg _
    rw [(pyEmailMatch_iff s).mpr hg] at h3
    simp at h3
  · simp only [false_iff, not_and]
    intro _ _ hbl _
    obtain ⟨b, hb, hsub⟩ := List.any_eq_true.mp h4
    exact hbl b hb ((subIn_iff b (lowerL s)).mp hsub)
  · simp only [false_iff, not_and]
    intro _ _ _ hext
    obtain ⟨e, he, hsub⟩ := List.any_eq_true.mp h5
    exact hext e he ((subIn_iff e (lowerL s)).mp hsub)
  · simp only [Bool.or_eq_true, List.isEmpty_iff, decide_eq_true_eq,
      not_or, not_lt] at h1 h2
    simp only [Bool.not_eq_true', Bool.not_eq_false] at h3
    simp only [true_iff]
    refine ⟨⟨h1.2, h2⟩, (pyEmailMatch_iff s).mp h3, ?_, ?_⟩
    · intro b hb hex
      exact h4 (List.any_eq_true.mpr ⟨b, hb, (subIn_iff b (lowerL s)).mpr hex⟩)
    · intro e he hex
      exact h5 (List.any_eq_true.mpr ⟨e, he, (subIn_iff e (lowerL s)).mpr hex⟩)

/-! ## Claim C2 -/

theorem firstValid_eq_find (l : List (List Char)) :
    firstValid l = l.find? validate_email := by
  induction l with
  | nil => rfl
  | cons m ms ih =>
    by_cases h : validate_email m = true
    · simp [firstValid, List.find?_cons, h]
    · simp only [Bool.not_eq_true] at h
      simp [firstValid, List.find?_cons, h, ih]

/-- C2: the claim fails as stated.  `extract_email_from_text` lowercases the
text before matching, so on `"AB@CD.EF"` it returns `"ab@cd.ef"`, which is
not the first (nor any) match of the extraction regex in the text itself —
that match is `"AB@CD.EF"`, and it passes validation. -/
theorem C2_counterexample_extract_lowercases :
    extract_email_from_text "AB@CD.EF".data = some "ab@cd.ef".data ∧
      (findallEmails "AB@CD.EF".data).find? validate_email =
        some "AB@CD.EF".data ∧
      ("ab@cd.ef".data : List Char) ≠ "AB@CD.EF".data := by
  refine ⟨by decide, by decide, by decide⟩

/-- C2 (amended): `extract_email_from_text` returns the first substring, in
document order among all matches of the extraction regex in the *lowercased*
text, that passes `validate_email`, and `none` when no match passes. -/
theorem C2_amended_extract_email_first_valid (text : List Char) :
    extract_email_from_text text =
        (findallEmails (lowerL text)).find? validate_email ∧
      (extract_email_from_text text = none ↔
        ∀ m ∈ findallEmails (lowerL text), validate_email m = false) := by
  have hmain : extract_email_from_text text =
      (findallEmails (lowerL text)).find? validate_email := by
    unfold extract_email_from_text
    split_ifs with h
    · rw [List.isEmpty_iff.mp h]
      rfl
    · exact firstValid_eq_find _
  refine ⟨hmain, ?_⟩
  rw [hmain, List.find?_eq_none]
  constructor
  · intro h m hm
    have := h m hm
    simpa using this
  · intro h m hm
    simp [h m hm]

/-! ## Claim C3 -/

theorem validate_email_ne_nil {e : List Char} (h : validate_email e = true) :
    e ≠ [] := by
  intro he
  subst he
  have hf : validate_email ([] : List Char) = false := by decide
  rw [hf] at h
  simp at h

/-- C3: when the first mailto anchor yields a validating email, discovery
returns exactly that email and invokes only the mailto strategy — the
regex-over-source and visible-region strategies are never invoked. -/
theorem C3_mailto_shortcircuit (p : Page) (href : List Char)
    (rest : List (List Char))
    (hfilter : p.anchorHrefs.filter (fun h => startsWithL mailtoScheme h) =
      href :: rest)
    (hvalid : validate_email (stripMailtoHref href) = true) :
    find_email_on_website p = (stripMailtoHref href, [Strategy.mailto]) := by
  have hmailto : find_by_mailto p = stripMailtoHref href := by
    unfold find_by_mailto
    rw [hfilter]
    simp [hvalid]
  have hne : (stripMailtoHref href).isEmpty = false :=
    List.isEmpty_eq_false.mpr (validate_email_ne_nil hvalid)
  unfold find_email_on_website
  rw [hmailto]
  simp [hne]

/-- C3 witness: a synthetic page whose only anchor is
`mailto:info@company.com` yields `info@company.com` via the mailto strategy
alone. -/
theorem C3_witness_mailto_page :
    find_email_on_website ⟨["mailto:info@company.com".data], [], []⟩ =
      ("info@company.com".data, [Strategy.mailto]) := by
  have h := C3_mailto_shortcircuit ⟨["mailto:info@company.com".data], [], []⟩
    "mailto:info@company.com".data [] (by decide) (by decide)
  rw [h]
  decide

/-! ## Claims C4 and C5 -/

/-- C4: under each of the four recognized policies, `validate_data` accepts
exactly when every required field is non-empty after trimming; on rejection
the reason is `"Missing: "` followed by the missing required fields joined by
`", "` in the policy's declared order; on acceptance under a policy with at
least one required field the reason is `"Valid"`; and the NONE policy accepts
every record.  The first conjunct pins down the four declared required-field
lists. -/
theorem C4_validate_data_policies (d : Record) (mode : String)
    (hm : mode ∈ VALIDATION_MODES) :
    (VALIDATION_RULES "STRICT" =
        ["namaTravel", "alamat", "kota", "telepon", "deskripsi",
         "websiteUrl", "logoUrl", "email", "mapUrl"] ∧
      VALIDATION_RULES "MODERATE" = ["namaTravel", "websiteUrl", "email"] ∧
      VALIDATION_RULES "LENIENT" = ["namaTravel", "telepon"] ∧
      VALIDATION_RULES "NONE" = []) ∧
    ((validate_data d mode).1 = true ↔
      ∀ f ∈ VALIDATION_RULES mode, pyStrip (recGet d f) ≠ []) ∧
    ((validate_data d mode).1 = false →
      (validate_data d mode).2 = "Missing: " ++ String.intercalate ", "
        ((VALIDATION_RULES mode).filter
          (fun f => (pyStrip (recGet d f)).isEmpty))) ∧
    ((validate_data d mode).1 = true → VALIDATION_RULES mode ≠ [] →
      (validate_data d mode).2 = "Valid") ∧
    (mode = "NONE" → validate_data d mode = (true, "No validation required")) := by
  have hc : VALIDATION_MODES.contains mode = true := List.elem_iff.mpr hm
  refine ⟨⟨by decide, by decide, by decide, by decide⟩, ?_⟩
  have hval : validate_data d mode =
      (if (VALIDATION_RULES mode).isEmpty then (true, "No validation required")
       else
         if ((VALIDATION_RULES mode).filter
              (fun f => (pyStrip (recGet d f)).isEmpty)).isEmpty then
           (true, "Valid")
         else
           (false, "Missing: " ++ String.intercalate ", "
             ((VALIDATION_RULES mode).filter
               (fun f => (pyStrip (recGet d f)).isEmpty)))) := by
    unfold validate_data
    rw [hc]
    rfl
  rw [hval]
  by_cases hreq : (VALIDATION_RULES mode).isEmpty
  · rw [if_pos hreq]
    have hnil : VALIDATION_RULES mode = [] := List.isEmpty_iff.mp hreq
    refine ⟨by simp [hnil], by simp, fun _ hne => absurd hnil hne, fun _ => rfl⟩
  · rw [if_neg hreq]
    by_cases hmiss : ((VALIDATION_RULES mode).filter
        (fun f => (pyStrip (recGet d f)).isEmpty)).isEmpty
    · rw [if_pos hmiss]
      have hall := List.filter_eq_nil_iff.mp (List.isEmpty_iff.mp hmiss)
      refine ⟨iff_of_true rfl ?_, by simp, fun _ _ => rfl, ?_⟩
      · intro f hf
        have := hall f hf
        simpa [List.isEmpty_iff] using this
      · intro hnone
        subst hnone
        exact absurd (by decide : (VALIDATION_RULES "NONE").isEmpty = true) hreq
    · rw [if_neg hmiss]
      refine ⟨?_, fun _ => rfl, by simp, ?_⟩
      · refine iff_of_false (by simp) ?_
        intro hforall
        obtain ⟨f, hf⟩ := List.exists_mem_of_ne_nil _
          (fun hn => hmiss (List.isEmpty_iff.mpr hn))
        have hfr := List.mem_filter.mp hf
        exact hforall f hfr.1 (List.isEmpty_iff.mp (by simpa using hfr.2))
      · intro hnone
        subst hnone
        exact absurd (by decide : (VALIDATION_RULES "NONE").isEmpty = true) hreq

/-- C4 witness: a record with non-empty name and phone passes the Lenient
policy with reason `"Valid"`. -/
theorem C4_witness_lenient_accepts :
    (validate_data [("namaTravel", "PT ABC".data), ("telepon", "021".data)]
      "LENIENT").1 = true :=
  ((C4_validate_data_policies
      [("namaTravel", "PT ABC".data), ("telepon", "021".data)]
      "LENIENT" (by decide)).2.1).mpr (by decide)

/-- C5: for every mode string outside the four recognized policy
identifiers, `validate_data` returns exactly the Moderate-policy result (it
is total, so it never raises). -/
theorem C5_unknown_mode_fails_closed (d : Record) (mode : String)
    (hm : mode ∉ VALIDATION_MODES) :
    validate_data d mode = validate_data d "MODERATE" := by
  have hc : VALIDATION_MODES.contains mode = false := by
    rw [← Bool.not_eq_true]
    intro hcon
    exact hm (List.elem_iff.mp hcon)
  unfold validate_data
  rw [hc]
  rfl

/-- C5 witness: the lowercase string `"moderate"` is not a recognized policy
identifier and falls back to the Moderate policy. -/
theorem C5_witness_lowercase_mode :
    validate_data [] "moderate" = validate_data [] "MODERATE" :=
  C5_unknown_mode_fails_closed [] "moderate" (by decide)

/-! ## Claim C6 -/

/-- C6: the claimed algorithm fails on addresses whose last comma segment has
no whitespace-delimited token.  On `"a, "` the claim's algorithm returns the
second-to-last segment `"a"`, but the code's `parts[-1].split()[-1]` raises
`IndexError`, which the handler turns into `""`. -/
theorem C6_counterexample_city_empty_last_segment :
    extract_city_from_address "a, ".data = [] ∧
      extract_city_spec "a, ".data = "a".data ∧
      ("a".data : List Char) ≠ [] := by
  refine ⟨by decide, by decide, by decide⟩

/-- C6 (amended): `extract_city_from_address` never raises (it is total) and
computes the claim's algorithm amended in one point: when the last segment
has no whitespace-delimited token, it returns `""`. -/
theorem C6_amended_extract_city (address : List Char) :
    extract_city_from_address address = extract_city_amended address := by
  by_cases ha : address = []
  · subst ha
    decide
  · have ha' : address.isEmpty = false := List.isEmpty_eq_false.mpr ha
    simp only [extract_city_from_address, extract_city_amended, ha',
      Bool.false_eq_true, if_false]
    by_cases hlen : 1 < ((splitChar ',' address).map pyStrip).length
    · rw [if_pos hlen, if_neg (by omega)]
    · rw [if_neg hlen, if_pos (by omega)]

/-! ## Claims C7 and C10 -/

theorem max_field_length_ge (k : String) (m : Nat)
    (h : MAX_FIELD_LENGTH k = some m) : 50 ≤ m := by
  unfold MAX_FIELD_LENGTH at h
  split_ifs at h <;> simp_all <;> omega

theorem truncVal_long {k : String} {v : List Char} {m : Nat}
    (h : MAX_FIELD_LENGTH k = some m) (hv : m < v.length) :
    truncVal k v = v.take (m - 3) ++ "...".data := by
  have hne : v.isEmpty = false := by
    apply List.isEmpty_eq_false.mpr
    intro hnil
    subst hnil
    simp at hv
  unfold truncVal
  rw [h]
  simp [hne, hv]

theorem truncVal_long_length {k : String} {v : List Char} {m : Nat}
    (h : MAX_FIELD_LENGTH k = some m) (hv : m < v.length) :
    (truncVal k v).length = m := by
  have h50 := max_field_length_ge k m h
  rw [truncVal_long h hv]
  simp only [List.length_append, List.length_take, List.length_cons,
    List.length_nil]
  omega

theorem truncVal_short {k : String} {v : List Char} {m : Nat}
    (h : MAX_FIELD_LENGTH k = some m) (hv : v.length ≤ m) :
    truncVal k v = v := by
  unfold truncVal
  rw [h]
  have : ¬ m < v.length := by omega
  simp [this]

theorem truncVal_none {k : String} {v : List Char}
    (h : MAX_FIELD_LENGTH k = none) : truncVal k v = v := by
  unfold truncVal
  rw [h]

theorem truncVal_idem (k : String) (v : List Char) :
    truncVal k (truncVal k v) = truncVal k v := by
  cases h : MAX_FIELD_LENGTH k with
  | none => rw [truncVal_none h, truncVal_none h]
  | some m =>
    by_cases hv : m < v.length
    · exact truncVal_short h (le_of_eq (truncVal_long_length h hv))
    · have hs := truncVal_short (v := v) h (by omega)
      rw [hs]
      exact hs

theorem truncate_fields_eq_map (d : Record) :
    truncate_fields d = d.map (fun kv => (kv.1, truncVal kv.1 kv.2)) := by
  induction d with
  | nil => rfl
  | cons kv rest ih =>
    obtain ⟨k, v⟩ := kv
    simp [truncate_fields, ih]

/-- C7: `truncate_fields` maps each field through the per-field rule: a value
strictly longer than its declared maximum is replaced by its first
`max_length - 3` characters followed by `"..."` (so the result has length
exactly `max_length`), and every other value — at or under the limit, or of
a field with no declared maximum — is unchanged. -/
theorem C7_truncate_fields_per_field (d : Record) :
    truncate_fields d = d.map (fun kv => (kv.1, truncVal kv.1 kv.2)) ∧
    (∀ k v m, MAX_FIELD_LENGTH k = some m →
      (m < v.length →
        truncVal k v = v.take (m - 3) ++ "...".data ∧
        (truncVal k v).length = m) ∧
      (v.length ≤ m → truncVal k v = v)) ∧
    (∀ k v, MAX_FIELD_LENGTH k = none → truncVal k v = v) := by
  refine ⟨truncate_fields_eq_map d, ?_, fun k v h => truncVal_none h⟩
  intro k v m h
  exact ⟨fun hv => ⟨truncVal_long h hv, truncVal_long_length h hv⟩,
    fun hv => truncVal_short h hv⟩

/-- C7 witness: a 300-character name (declared maximum 256) is truncated to
length exactly 256; a value under its limit is unchanged. -/
theorem C7_witness_truncate_name :
    (truncVal "namaTravel" (List.replicate 300 'a')).length = 256 ∧
      truncVal "alamat" "Normal address".data = "Normal address".data := by
  constructor
  · exact (((C7_truncate_fields_per_field []).2.1 "namaTravel"
      (List.replicate 300 'a') 256 rfl).1
        (by rw [List.length_replicate]; omega)).2
  · exact ((C7_truncate_fields_per_field []).2.1 "alamat"
      "Normal address".data 512 rfl).2 (by decide)

/-- C10: `truncate_fields` is idempotent, and the output has exactly the
input's keys, in order. -/
theorem C10_truncate_fields_idempotent (d : Record) :
    truncate_fields (truncate_fields d) = truncate_fields d ∧
      (truncate_fields d).map Prod.fst = d.map Prod.fst := by
  constructor
  · rw [truncate_fields_eq_map d, truncate_fields_eq_map]
    rw [List.map_map]
    apply List.map_congr_left
    intro kv _
    simp [truncVal_idem]
  · rw [truncate_fields_eq_map d, List.map_map]
    rfl

/-! ## Claim C8 -/

theorem retryLoop_success {E A : Type} (f : Nat → Except E A) (g : Nat → E)
    (d b maxR : Nat) :
    ∀ (k s i : Nat) (a : A) (lastE : Option E), s + k = maxR → s ≤ i →
      i < maxR → (∀ j, s ≤ j → j < i → f j = Except.error (g j)) →
      f i = Except.ok a →
      retryLoop f d b maxR s k lastE =
        (Except.ok a, (List.range' s (i - s)).map (fun j => d * b ^ j),
         List.range' s (i - s + 1)) := by
  intro k
  induction k with
  | zero =>
    intro s i a lastE hsk hsi him _ _
    omega
  | succ k ih =>
    intro s i a lastE hsk hsi him hfail hok
    by_cases his : i = s
    · subst his
      simp only [retryLoop, hok]
      simp [List.range']
    · have hlt : s < i := lt_of_le_of_ne hsi (fun hh => his hh.symm)
      have hfs : f s = Except.error (g s) := hfail s le_rfl hlt
      simp only [retryLoop, hfs]
      have hcond : s < maxR - 1 := by omega
      rw [if_pos hcond]
      have ihh := ih (s + 1) i a (some (g s)) (by omega) (by omega) him
        (fun j hj1 hj2 => hfail j (by omega) hj2) hok
      rw [ihh]
      have h1 : i - s = (i - (s + 1)) + 1 := by omega
      rw [h1]
      simp [List.range']

theorem retryLoop_allfail {E A : Type} (f : Nat → Except E A) (g : Nat → E)
    (d b maxR : Nat) :
    ∀ (k s : Nat) (lastE : Option E), 1 ≤ k → s + k = maxR →
      (∀ j, s ≤ j → j < maxR → f j = Except.error (g j)) →
      retryLoop f d b maxR s k lastE =
        (Except.error (some (g (maxR - 1))),
         (List.range' s (k - 1)).map (fun j => d * b ^ j),
         List.range' s k) := by
  intro k
  induction k with
  | zero =>
    intro s lastE h1
    omega
  | succ k ih =>
    intro s lastE _ hsk hfail
    have hfs : f s = Except.error (g s) := hfail s le_rfl (by omega)
    simp only [retryLoop, hfs]
    cases k with
    | zero =>
      have hs : maxR - 1 = s := by omega
      have hcond : ¬ s < maxR - 1 := by omega
      rw [if_neg hcond]
      simp only [retryLoop]
      rw [hs]
      simp [List.range']
    | succ n =>
      have hcond : s < maxR - 1 := by omega
      rw [if_pos hcond]
      have ihh := ih (s + 1) (some (g s)) (by omega) (by omega)
        (fun j hj1 hj2 => hfail j (by omega) hj2)
      rw [ihh]
      simp [List.range']

/-- C8: the retry wrapper (a) returns the first successful attempt's result
unchanged, invoking attempts `0..i` only and sleeping
`delay * backoff ^ attempt` between consecutive attempts, and (b) when all
`max_retries` attempts fail, invokes exactly attempts `0..max_retries - 1`,
sleeps between consecutive attempts only, and re-raises the final attempt's
exception unchanged. -/
theorem C8_retry_on_failure_spec {E A : Type} (f : Nat → Except E A)
    (g : Nat → E) (maxR delay backoff : Nat) (hmax : 1 ≤ maxR) :
    (∀ i a, i < maxR → (∀ j, j < i → f j = Except.error (g j)) →
      f i = Except.ok a →
      retry_on_failure f maxR delay backoff =
        (Except.ok a, (List.range i).map (fun j => delay * backoff ^ j),
         List.range (i + 1))) ∧
    ((∀ j, j < maxR → f j = Except.error (g j)) →
      retry_on_failure f maxR delay backoff =
        (Except.error (some (g (maxR - 1))),
         (List.range (maxR - 1)).map (fun j => delay * backoff ^ j),
         List.range maxR)) := by
  constructor
  · intro i a him hfail hok
    have h := retryLoop_success f g delay backoff maxR maxR 0 i a none
      (by omega) (by omega) him (fun j _ hj2 => hfail j hj2) hok
    unfold retry_on_failure
    rw [h]
    simp [List.range_eq_range']
  · intro hfail
    have h := retryLoop_allfail f g delay backoff maxR maxR 0 none hmax
      (by omega) (fun j _ hj2 => hfail j hj2)
    unfold retry_on_failure
    rw [h]
    simp [List.range_eq_range']

/-- C8 witness: an operation failing once then succeeding, retried with
`max_retries = 3`, `delay = 2`, `backoff = 2`: the success value 42 is
returned after attempts 0 and 1 with a single 2-second sleep. -/
theorem C8_witness_retry :
    retry_on_failure (fun j => if j = 0 then Except.error 7 else Except.ok 42)
      3 2 2 = (Except.ok 42, [2], [0, 1]) := by
  have h := (C8_retry_on_failure_spec
      (fun j => if j = 0 then Except.error 7 else Except.ok 42)
      (fun _ => 7) 3 2 2 (by omega)).1 1 42 (by omega)
      (by intro j hj; interval_cases j; rfl) rfl
  rw [h]
  rfl

/-! ## Claim C9 -/

theorem reasonsTotal_bump (r : String) (l : List (String × Nat)) :
    reasonsTotal (bumpReason r l) = reasonsTotal l + 1 := by
  induction l with
  | nil => rfl
  | cons kv rest ih =>
    obtain ⟨k, v⟩ := kv
    by_cases hk : k = r
    · simp [bumpReason, hk, reasonsTotal]
      omega
    · simp only [bumpReason, if_neg hk, reasonsTotal, List.map_cons,
        List.sum_cons] at ih ⊢
      omega

theorem reasonCount_bump_le (r r' : String) (l : List (String × Nat)) :
    reasonCount r' l ≤ reasonCount r' (bumpReason r l) := by
  induction l with
  | nil =>
    simp [reasonCount]
  | cons kv rest ih =>
    obtain ⟨k, v⟩ := kv
    by_cases hk : k = r
    · subst hk
      by_cases hr : (k == r') = true
      · simp [bumpReason, reasonCount, List.find?, hr]
      · simp [bumpReason, reasonCount, List.find?, hr]
    · by_cases hr : (k == r') = true
      · simp [bumpReason, hk, reasonCount, List.find?, hr]
      · simp only [bumpReason, if_neg hk]
        simp only [reasonCount, List.find?, hr] at ih ⊢
        exact ih

/-- C9: every statistics state reachable from the fresh aggregator by
`add_saved` / `add_skipped` calls satisfies
`total_processed = total_saved + total_skipped` and
`total_skipped = Σ skip-reason counts`; moreover no operation ever decreases
any counter (processed, saved, skipped, or any per-reason count). -/
theorem C9_statistics_invariants (ops : List StatOp) :
    ((runOps ops).total_processed =
        (runOps ops).total_saved + (runOps ops).total_skipped ∧
      (runOps ops).total_skipped = reasonsTotal (runOps ops).skip_reasons) ∧
    ∀ (s : DataStatistics) (op : StatOp),
      s.total_processed ≤ (applyOp s op).total_processed ∧
      s.total_saved ≤ (applyOp s op).total_saved ∧
      s.total_skipped ≤ (applyOp s op).total_skipped ∧
      ∀ r, reasonCount r s.skip_reasons ≤
        reasonCount r (applyOp s op).skip_reasons := by
  constructor
  · have aux : ∀ (l : List StatOp) (s : DataStatistics),
        (s.total_processed = s.total_saved + s.total_skipped ∧
          s.total_skipped = reasonsTotal s.skip_reasons) →
        ((l.foldl applyOp s).total_processed =
            (l.foldl applyOp s).total_saved +
              (l.foldl applyOp s).total_skipped ∧
          (l.foldl applyOp s).total_skipped =
            reasonsTotal (l.foldl applyOp s).skip_reasons) := by
      intro l
      induction l with
      | nil => intro s hs; exact hs
      | cons op rest ih =>
        intro s hs
        rw [List.foldl_cons]
        apply ih
        cases op with
        | saved =>
          refine ⟨?_, hs.2⟩
          simp only [applyOp, DataStatistics.add_saved]
          omega
        | skipped r =>
          simp only [applyOp, DataStatistics.add_skipped]
          refine ⟨by omega, ?_⟩
          rw [reasonsTotal_bump]
          omega
    exact aux ops DataStatistics.init ⟨rfl, rfl⟩
  · intro s op
    cases op with
    | saved =>
      refine ⟨?_, ?_, ?_, ?_⟩ <;>
        simp [applyOp, DataStatistics.add_saved]
    | skipped r =>
      refine ⟨?_, ?_, ?_, ?_⟩ <;>
        simp only [applyOp, DataStatistics.add_skipped]
      · omega
      · exact le_rfl
      · omega
      · intro r'
        exact reasonCount_bump_le r r' s.skip_reasons

end GmapsScraper
